import Mathlib

/-!
Shallow embedding of the "stutter" triggered loop-capture/playback engine
from `src/stutter/src/lib.rs`, together with the parameter translation layer
(`Parameters::from`, using `ease_in_expo` from `src/clipper/src/lib.rs`).

Samples are modelled polymorphically (the ring buffer only moves samples;
it performs no arithmetic on them); the mixer and concrete runs use `ℚ` or
`ℤ`.  Machine `usize` values are modelled as `ℕ`.  Rust operations that can
panic (`%` by zero, out-of-bounds indexing) are modelled with `Option`.
-/

/-- `MAX_BUFFER_SIZE` from `src/stutter/src/lib.rs` (32768). -/
def MAX_BUFFER_SIZE : ℕ := 32768

/-- The `RingBuffer` struct: a fixed sample buffer, the needle cursor, the
active size, and the trigger flag.  The buffer's length plays the role of
the compile-time array length (the capacity). -/
structure RingBuffer (α : Type) where
  buffer : List α
  needle : ℕ
  size : ℕ
  trigger : Bool
  deriving DecidableEq

namespace RingBuffer

/-- A ring buffer in its freshly-constructed state, generalised over the
capacity: zero-filled buffer of length `cap`, needle 0, active size `s`,
untriggered.  `RingBuffer::new(size)` in the source is `init MAX_BUFFER_SIZE size`. -/
def init [Zero α] (cap s : ℕ) : RingBuffer α :=
  { buffer := List.replicate cap 0, needle := 0, size := s, trigger := false }

/-- `RingBuffer::new(size)` from the source: the buffer array always has
length `MAX_BUFFER_SIZE`; the `size` field is the constructor argument. -/
def new [Zero α] (s : ℕ) : RingBuffer α := init MAX_BUFFER_SIZE s

/-- `RingBuffer::next(&mut self, input)`.  If triggered: write `input` at the
needle while `needle < MAX_BUFFER_SIZE` (the buffer length), then read
`buffer[needle % size]` and advance the needle.  If untriggered: pass the
input through.  `none` models a Rust panic (`% 0`, or an out-of-range read). -/
def next (rb : RingBuffer α) (input : α) : Option (α × RingBuffer α) :=
  if rb.trigger then
    let buf := if rb.needle < rb.buffer.length then rb.buffer.set rb.needle input
               else rb.buffer
    if rb.size = 0 then none
    else
      match buf[rb.needle % rb.size]? with
      | none => none
      | some sample =>
          some (sample, { rb with buffer := buf, needle := rb.needle + 1 })
  else
    some (input, rb)

/-- `RingBuffer::set_size`: stores the argument unchanged. -/
def set_size (rb : RingBuffer α) (new_size : ℕ) : RingBuffer α :=
  { rb with size := new_size }

/-- `RingBuffer::set_triggered`: resets the needle to 0 and raises the flag. -/
def set_triggered (rb : RingBuffer α) : RingBuffer α :=
  { rb with needle := 0, trigger := true }

/-- `RingBuffer::set_untriggered`: lowers the flag; needle untouched. -/
def set_untriggered (rb : RingBuffer α) : RingBuffer α :=
  { rb with trigger := false }

/-- Feed a list of input samples through `next`, collecting the outputs. -/
def run (rb : RingBuffer α) : List α → Option (List α × RingBuffer α)
  | [] => some ([], rb)
  | i :: is =>
      match rb.next i with
      | none => none
      | some (o, rb') =>
          match run rb' is with
          | none => none
          | some (os, rbf) => some (o :: os, rbf)

/-- State after `n` samples, where the input at step `k` is `f k` and the
active size during step `k` is `sizes k` (set via `set_size` before the
step, mirroring the per-block `set_size` call in `Stutter::process`). -/
def runN (f : ℕ → α) (sizes : ℕ → ℕ) (rb : RingBuffer α) : ℕ → Option (RingBuffer α)
  | 0 => some rb
  | n + 1 =>
      (runN f sizes rb n).bind fun r => ((r.set_size (sizes n)).next (f n)).map Prod.snd

/-- Output produced at step `n` of the run described by `runN`. -/
def outN (f : ℕ → α) (sizes : ℕ → ℕ) (rb : RingBuffer α) (n : ℕ) : Option α :=
  (runN f sizes rb n).bind fun r => ((r.set_size (sizes n)).next (f n)).map Prod.fst

end RingBuffer

example : ((RingBuffer.init 8 4 : RingBuffer ℤ).set_triggered.run
    [1,2,3,4,5,6,7,8,9,10]).map Prod.fst = some [1,2,3,4,1,2,3,4,1,2] := by decide

/-- One `RingBuffer` API call, for stating trace-level invariants. -/
inductive Op (α : Type) where
  | next (input : α)
  | setSize (n : ℕ)
  | setTriggered
  | setUntriggered
  deriving DecidableEq

/-- Apply one API call to a ring buffer (the output of `next` is dropped;
`none` models a panic inside `next`). -/
def applyOp (rb : RingBuffer α) : Op α → Option (RingBuffer α)
  | .next i => (rb.next i).map Prod.snd
  | .setSize n => some (rb.set_size n)
  | .setTriggered => some rb.set_triggered
  | .setUntriggered => some rb.set_untriggered

/-- The per-block parameter snapshot (`struct Parameters`), after the
translation layer has run: trigger thresholded to a Bool, buffer size an
integer, wet/dry a scalar. -/
structure Parameters where
  trigger : Bool
  buffer_size : ℕ
  wet_dry : ℚ

/-- The mutable state of the `Stutter` plugin: one ring buffer per stereo
channel plus the previous block's trigger boolean. -/
structure Stutter where
  ringbuf_left : RingBuffer ℚ
  ringbuf_right : RingBuffer ℚ
  last_trigger_state : Bool
  deriving DecidableEq

/-- `Stutter::new`: both ring buffers are `RingBuffer::new(MAX_BUFFER_SIZE / 2)`;
the previous trigger state starts false. -/
def Stutter.new : Stutter :=
  { ringbuf_left := RingBuffer.new (MAX_BUFFER_SIZE / 2)
    ringbuf_right := RingBuffer.new (MAX_BUFFER_SIZE / 2)
    last_trigger_state := false }

/-- The per-channel sample loop of `Stutter::process`: for each input sample,
`out = ringbuf.next(input)`, then `output = input * (1 - wet_dry) + out * wet_dry`. -/
def runMix (wet : ℚ) : RingBuffer ℚ → List ℚ → Option (List ℚ × RingBuffer ℚ)
  | rb, [] => some ([], rb)
  | rb, i :: is =>
      match rb.next i with
      | none => none
      | some (o, rb') =>
          match runMix wet rb' is with
          | none => none
          | some (os, rbf) => some ((i * (1 - wet) + o * wet) :: os, rbf)

/-- The `match (self.last_trigger_state, params.trigger)` edge dispatch of
`Stutter::process`, applied to one ring buffer: a rising edge calls
`set_triggered`, a falling edge calls `set_untriggered`, anything else does
nothing. -/
def edgeTransition (last cur : Bool) (rb : RingBuffer ℚ) : RingBuffer ℚ :=
  match last, cur with
  | false, true => rb.set_triggered
  | true, false => rb.set_untriggered
  | _, _ => rb

/-- `Stutter::process` on one block: set the size on both ring buffers, apply
the trigger edge transition from `(last_trigger_state, params.trigger)`, run
the mixed sample loop on each channel, and record the block's trigger state. -/
def Stutter.process (st : Stutter) (params : Parameters) (leftIn rightIn : List ℚ) :
    Option (List ℚ × List ℚ × Stutter) :=
  let rl1 := edgeTransition st.last_trigger_state params.trigger
    (st.ringbuf_left.set_size params.buffer_size)
  let rr1 := edgeTransition st.last_trigger_state params.trigger
    (st.ringbuf_right.set_size params.buffer_size)
  match runMix params.wet_dry rl1 leftIn with
  | none => none
  | some (outL, rlf) =>
      match runMix params.wet_dry rr1 rightIn with
      | none => none
      | some (outR, rrf) =>
          some (outL, outR,
            { ringbuf_left := rlf, ringbuf_right := rrf,
              last_trigger_state := params.trigger })

/-! ### The parameter translation layer

`Parameters::from` computes
`buffer_size = ((ease_in_expo(raw) * MAX_BUFFER_SIZE as f32) as usize).clamp(1, MAX_BUFFER_SIZE)`.
The raw host value is an arbitrary `f32`, modelled as either a special value
(NaN, ±∞) or an exact real; the finite-case arithmetic is idealised over `ℝ`
(no rounding), which preserves branch structure and the final integer range. -/

/-- An `f32` value: NaN, an infinity, or a finite value idealised as a real. -/
inductive F32 where
  | nan
  | posInf
  | negInf
  | finite (x : ℝ)

/-- `usize::MAX` (`2^64 - 1`), the saturation bound of Rust's
float-to-`usize` cast. -/
def USIZE_MAX : ℕ := 18446744073709551615

/-- `ease_in_expo` from `src/clipper/src/lib.rs` on finite reals:
`0` for `x ≤ 0`, else `(2^(10x) - 1) / (2^10 - 1)`. -/
noncomputable def ease_in_expo (x : ℝ) : ℝ :=
  if x ≤ 0 then 0 else ((2 : ℝ) ^ ((10 : ℝ) * x) - 1) / ((2 : ℝ) ^ (10 : ℝ) - 1)

/-- `ease_in_expo` on a raw `f32`.  NaN fails the `x <= 0.0` test, and
`powf`, subtraction and division propagate NaN; `-∞ ≤ 0` takes the zero
branch; `+∞` gives `2^∞ = ∞`, and `(∞ - 1) / 1023 = ∞`. -/
noncomputable def easeF32 : F32 → F32
  | .nan => .nan
  | .negInf => .finite 0
  | .posInf => .posInf
  | .finite x => .finite (ease_in_expo x)

/-- Multiplication by the positive constant `MAX_BUFFER_SIZE as f32`. -/
noncomputable def mulCap : F32 → F32
  | .nan => .nan
  | .negInf => .negInf
  | .posInf => .posInf
  | .finite x => .finite (x * (MAX_BUFFER_SIZE : ℝ))

/-- Rust's saturating `as usize` cast: NaN and `-∞` (and any negative value)
go to 0, `+∞` saturates to `usize::MAX`, finite values truncate toward zero
and saturate at `usize::MAX`. -/
noncomputable def f32ToUsize : F32 → ℕ
  | .nan => 0
  | .negInf => 0
  | .posInf => USIZE_MAX
  | .finite x => min ⌊x⌋₊ USIZE_MAX

/-- Rust's `usize::clamp(self, lo, hi)`. -/
def rustClamp (n lo hi : ℕ) : ℕ :=
  if n < lo then lo else if n > hi then hi else n

/-- The `buffer_size` field computed by `Parameters::from` from the raw
host `buffer_size` value. -/
noncomputable def paramBufferSize (raw : F32) : ℕ :=
  rustClamp (f32ToUsize (mulCap (easeF32 raw))) 1 MAX_BUFFER_SIZE

/-- Modelled from the spec's words (for the refinement claim about the
numeric mapping): apply the exponential ease-in curve
`(2^(10x) - 1) / (2^10 - 1)` (0 for `x ≤ 0`), scale by the capacity, floor
to an integer, clamp to `[1, capacity]`. -/
noncomputable def specBufferSize (x : ℝ) : ℕ :=
  max 1 (min ⌊(if x ≤ 0 then 0 else ((2 : ℝ) ^ ((10 : ℝ) * x) - 1) / ((2 : ℝ) ^ (10 : ℝ) - 1)) * (MAX_BUFFER_SIZE : ℝ)⌋₊ MAX_BUFFER_SIZE)

/-! ### Helper lemmas -/

namespace RingBuffer

variable {α : Type}

@[simp] theorem set_size_buffer (rb : RingBuffer α) (n : ℕ) :
    (rb.set_size n).buffer = rb.buffer := rfl

@[simp] theorem set_size_needle (rb : RingBuffer α) (n : ℕ) :
    (rb.set_size n).needle = rb.needle := rfl

@[simp] theorem set_size_size (rb : RingBuffer α) (n : ℕ) :
    (rb.set_size n).size = n := rfl

@[simp] theorem set_size_trigger (rb : RingBuffer α) (n : ℕ) :
    (rb.set_size n).trigger = rb.trigger := rfl

@[simp] theorem set_triggered_buffer (rb : RingBuffer α) :
    rb.set_triggered.buffer = rb.buffer := rfl

@[simp] theorem set_triggered_needle (rb : RingBuffer α) :
    rb.set_triggered.needle = 0 := rfl

@[simp] theorem set_triggered_size (rb : RingBuffer α) :
    rb.set_triggered.size = rb.size := rfl

@[simp] theorem set_triggered_trigger (rb : RingBuffer α) :
    rb.set_triggered.trigger = true := rfl

@[simp] theorem set_untriggered_buffer (rb : RingBuffer α) :
    rb.set_untriggered.buffer = rb.buffer := rfl

@[simp] theorem set_untriggered_needle (rb : RingBuffer α) :
    rb.set_untriggered.needle = rb.needle := rfl

@[simp] theorem set_untriggered_size (rb : RingBuffer α) :
    rb.set_untriggered.size = rb.size := rfl

@[simp] theorem set_untriggered_trigger (rb : RingBuffer α) :
    rb.set_untriggered.trigger = false := rfl

theorem next_not_triggered (rb : RingBuffer α) (i : α) (h : rb.trigger = false) :
    rb.next i = some (i, rb) := by
  simp [next, h]

/-- The written buffer inside a triggered `next` step. -/
def writeBuf (rb : RingBuffer α) (i : α) : List α :=
  if rb.needle < rb.buffer.length then rb.buffer.set rb.needle i else rb.buffer

@[simp] theorem length_writeBuf (rb : RingBuffer α) (i : α) :
    (rb.writeBuf i).length = rb.buffer.length := by
  unfold writeBuf; split <;> simp

theorem next_triggered (rb : RingBuffer α) (i : α) (h : rb.trigger = true)
    (hs : rb.size ≠ 0) :
    rb.next i = ((rb.writeBuf i)[rb.needle % rb.size]?).map
      (fun s => (s, { rb with buffer := rb.writeBuf i, needle := rb.needle + 1 })) := by
  simp only [next, if_pos h, if_neg hs, writeBuf]
  cases hget : (if rb.needle < rb.buffer.length then rb.buffer.set rb.needle i
      else rb.buffer)[rb.needle % rb.size]? <;> simp [hget]

theorem next_triggered_some (rb : RingBuffer α) (i : α) (h : rb.trigger = true)
    (hs : rb.size ≠ 0) (hcap : rb.size ≤ rb.buffer.length) :
    ∃ s, (rb.writeBuf i)[rb.needle % rb.size]? = some s ∧
      rb.next i = some (s, { rb with buffer := rb.writeBuf i, needle := rb.needle + 1 }) := by
  have hidx : rb.needle % rb.size < (rb.writeBuf i).length := by
    rw [length_writeBuf]
    exact lt_of_lt_of_le (Nat.mod_lt _ (Nat.pos_of_ne_zero hs)) hcap
  cases hget : (rb.writeBuf i)[rb.needle % rb.size]? with
  | none =>
      rw [List.getElem?_eq_none_iff] at hget
      omega
  | some s =>
      exact ⟨s, rfl, by rw [next_triggered rb i h hs, hget]; rfl⟩

/-- Invariant of a triggered run: after `n` steps the needle is `n`, the
trigger is still up, and buffer cell `m` holds the raw input `f m` for every
`m < n` within capacity (cells beyond are untouched).  Sizes may change from
step to step as long as each one is in `[1, capacity]`. -/
theorem runN_spec (f : ℕ → α) (sizes : ℕ → ℕ) (rb0 : RingBuffer α)
    (htrig : rb0.trigger = true) (hn0 : rb0.needle = 0) (n : ℕ)
    (hsz : ∀ k, k < n → 0 < sizes k ∧ sizes k ≤ rb0.buffer.length) :
    ∃ rbn, runN f sizes rb0 n = some rbn ∧
      rbn.trigger = true ∧ rbn.needle = n ∧
      rbn.buffer.length = rb0.buffer.length ∧
      ∀ m, m < rb0.buffer.length →
        rbn.buffer[m]? = if m < n then some (f m) else rb0.buffer[m]? := by
  induction n with
  | zero =>
      exact ⟨rb0, rfl, htrig, hn0, rfl, fun m _ => by simp⟩
  | succ n ih =>
      obtain ⟨rbn, hrun, ht, hneed, hlen, hcells⟩ :=
        ih (fun k hk => hsz k (Nat.lt_succ_of_lt hk))
      have hrt : (rbn.set_size (sizes n)).trigger = true := ht
      have hrs : (rbn.set_size (sizes n)).size ≠ 0 :=
        (hsz n (Nat.lt_succ_self n)).1.ne'
      have hrcap : (rbn.set_size (sizes n)).size ≤ (rbn.set_size (sizes n)).buffer.length := by
        simp only [set_size_size, set_size_buffer, hlen]
        exact (hsz n (Nat.lt_succ_self n)).2
      obtain ⟨s, _, hnext⟩ := next_triggered_some (rbn.set_size (sizes n)) (f n) hrt hrs hrcap
      have hstep : runN f sizes rb0 (n + 1) =
          (((rbn.set_size (sizes n)).next (f n)).map Prod.snd) := by
        simp only [runN, hrun, Option.some_bind]
      refine ⟨{ buffer := (rbn.set_size (sizes n)).writeBuf (f n),
                needle := (rbn.set_size (sizes n)).needle + 1,
                size := (rbn.set_size (sizes n)).size,
                trigger := (rbn.set_size (sizes n)).trigger },
              by rw [hstep, hnext, Option.map_some'], ht, ?_, ?_, ?_⟩
      · show (rbn.set_size (sizes n)).needle + 1 = n + 1
        simp [hneed]
      · show ((rbn.set_size (sizes n)).writeBuf (f n)).length = rb0.buffer.length
        simp [hlen]
      · intro m hm
        show ((rbn.set_size (sizes n)).writeBuf (f n))[m]? = _
        unfold writeBuf
        simp only [set_size_buffer, set_size_needle, hneed, hlen]
        by_cases hcap : n < rb0.buffer.length
        · rw [if_pos hcap]
          by_cases hmn : m = n
          · subst hmn
            rw [List.getElem?_set_self (by omega), if_pos (Nat.lt_succ_self m)]
          · rw [List.getElem?_set_ne (fun h => hmn h.symm), hcells m hm]
            by_cases hlt : m < n
            · rw [if_pos hlt, if_pos (by omega)]
            · rw [if_neg hlt, if_neg (by omega)]
        · rw [if_neg hcap, hcells m hm, if_pos (by omega), if_pos (by omega)]

/-- Output of a triggered run at step `n`: the raw input captured at
position `n mod (size at step n)`. -/
theorem outN_spec (f : ℕ → α) (sizes : ℕ → ℕ) (rb0 : RingBuffer α)
    (htrig : rb0.trigger = true) (hn0 : rb0.needle = 0) (n : ℕ)
    (hsz : ∀ k, k ≤ n → 0 < sizes k ∧ sizes k ≤ rb0.buffer.length) :
    outN f sizes rb0 n = some (f (n % sizes n)) := by
  obtain ⟨rbn, hrun, ht, hneed, hlen, hcells⟩ :=
    runN_spec f sizes rb0 htrig hn0 n (fun k hk => hsz k (Nat.le_of_lt hk))
  have hrt : (rbn.set_size (sizes n)).trigger = true := ht
  have hszn := hsz n (Nat.le_refl n)
  have hrs : (rbn.set_size (sizes n)).size ≠ 0 := hszn.1.ne'
  have hrcap : (rbn.set_size (sizes n)).size ≤ (rbn.set_size (sizes n)).buffer.length := by
    simp only [set_size_size, set_size_buffer, hlen]
    exact hszn.2
  obtain ⟨s, hget, hnext⟩ := next_triggered_some (rbn.set_size (sizes n)) (f n) hrt hrs hrcap
  have hout : outN f sizes rb0 n = some s := by
    simp only [outN, hrun, Option.some_bind, hnext, Option.map_some']
  rw [hout]
  -- identify the sample read from the freshly written buffer
  have hmodlt : n % sizes n < rb0.buffer.length :=
    lt_of_lt_of_le (Nat.mod_lt _ hszn.1) hszn.2
  have hval : ((rbn.set_size (sizes n)).writeBuf (f n))[(rbn.set_size (sizes n)).needle %
      (rbn.set_size (sizes n)).size]? = some (f (n % sizes n)) := by
    unfold writeBuf
    simp only [set_size_buffer, set_size_needle, set_size_size, hneed, hlen]
    by_cases hcap : n < rb0.buffer.length
    · rw [if_pos hcap]
      by_cases hmn : n % sizes n = n
      · rw [hmn, List.getElem?_set_self (by omega)]
      · rw [List.getElem?_set_ne (fun h => hmn h.symm), hcells _ hmodlt,
          if_pos (by have := Nat.mod_le n (sizes n); omega)]
    · have hmn : n % sizes n < n := by omega
      rw [if_neg hcap, hcells _ hmodlt, if_pos hmn]
  rw [hget] at hval
  exact congrArg some (Option.some.inj hval)

/-- Pass-through: with the trigger down, `run` echoes the whole input list
and leaves the state untouched. -/
theorem run_not_triggered (rb : RingBuffer α) (h : rb.trigger = false)
    (inputs : List α) : rb.run inputs = some (inputs, rb) := by
  induction inputs with
  | nil => rfl
  | cons i is ih => simp only [run, next_not_triggered rb i h, ih]

/-- `next` never fails when the active size is in `[1, capacity]`. -/
theorem next_isSome (rb : RingBuffer α) (i : α) (h1 : rb.size ≠ 0)
    (h2 : rb.size ≤ rb.buffer.length) : (rb.next i).isSome = true := by
  cases htr : rb.trigger
  · rw [next_not_triggered rb i htr]; rfl
  · obtain ⟨s, _, hnext⟩ := next_triggered_some rb i htr h1 h2
    rw [hnext]; rfl

end RingBuffer

/-- The mixed per-channel loop is the raw loop with the wet/dry blend applied
pointwise to (input, looped) pairs. -/
theorem runMix_eq_zip (wet : ℚ) (ins : List ℚ) (rb : RingBuffer ℚ) :
    runMix wet rb ins = (rb.run ins).map
      (fun p => (List.zipWith (fun i o => i * (1 - wet) + o * wet) ins p.1, p.2)) := by
  induction ins generalizing rb with
  | nil => simp [runMix, RingBuffer.run]
  | cons i is ih =>
      cases hnext : rb.next i with
      | none => simp [runMix, RingBuffer.run, hnext]
      | some p =>
          obtain ⟨o, rb'⟩ := p
          cases hrun : rb'.run is with
          | none => simp [runMix, RingBuffer.run, hnext, ih, hrun]
          | some q => simp [runMix, RingBuffer.run, hnext, ih, hrun]

/-- Fully dry (`wet_dry = 0`): the mixed outputs are the raw inputs. -/
theorem runMix_zero (ins : List ℚ) (rb : RingBuffer ℚ) :
    runMix 0 rb ins = (rb.run ins).map (fun p => (ins, p.2)) := by
  induction ins generalizing rb with
  | nil => simp [runMix, RingBuffer.run]
  | cons i is ih =>
      cases hnext : rb.next i with
      | none => simp [runMix, RingBuffer.run, hnext]
      | some p =>
          obtain ⟨o, rb'⟩ := p
          cases hrun : rb'.run is with
          | none => simp [runMix, RingBuffer.run, hnext, ih, hrun]
          | some q => simp [runMix, RingBuffer.run, hnext, ih, hrun]

/-- Fully wet (`wet_dry = 1`): the mixed outputs are exactly the loop
buffer's raw `next` outputs. -/
theorem runMix_one (ins : List ℚ) (rb : RingBuffer ℚ) :
    runMix 1 rb ins = rb.run ins := by
  induction ins generalizing rb with
  | nil => simp [runMix, RingBuffer.run]
  | cons i is ih =>
      cases hnext : rb.next i with
      | none => simp [runMix, RingBuffer.run, hnext]
      | some p =>
          obtain ⟨o, rb'⟩ := p
          cases hrun : rb'.run is with
          | none => simp [runMix, RingBuffer.run, hnext, ih, hrun]
          | some q => simp [runMix, RingBuffer.run, hnext, ih, hrun]

/-- The translation layer's clamp always lands in `[1, MAX_BUFFER_SIZE]`. -/
theorem rustClamp_bounds (n : ℕ) :
    1 ≤ rustClamp n 1 MAX_BUFFER_SIZE ∧ rustClamp n 1 MAX_BUFFER_SIZE ≤ MAX_BUFFER_SIZE := by
  unfold rustClamp MAX_BUFFER_SIZE
  split_ifs <;> omega

/-- The size schedule of the spec's seamless-grow scenario: active size 2 for
the first 6 samples, 4 thereafter. -/
def growSizes : ℕ → ℕ := fun k => if k < 6 then 2 else 4

/-! ### Claims -/

/-- C1: while triggered, with needle < size the output equals the freshly
arriving input (pre-loop warm-up), and once needle ≥ size the output repeats
the captured window with period `size`; every output at step `n` is the raw
input captured at position `n mod size`. -/
theorem capture_then_loop (cap s n : ℕ) (f : ℕ → ℤ) (hs : 0 < s) (hcap : s ≤ cap) :
    RingBuffer.outN f (fun _ => s) ((RingBuffer.init cap s : RingBuffer ℤ).set_triggered) n
        = some (f (n % s))
    ∧ (n < s →
        RingBuffer.outN f (fun _ => s) ((RingBuffer.init cap s : RingBuffer ℤ).set_triggered) n
          = some (f n))
    ∧ RingBuffer.outN f (fun _ => s) ((RingBuffer.init cap s : RingBuffer ℤ).set_triggered)
        (n + s)
      = RingBuffer.outN f (fun _ => s) ((RingBuffer.init cap s : RingBuffer ℤ).set_triggered) n := by
  have hmain : ∀ m : ℕ,
      RingBuffer.outN f (fun _ => s) ((RingBuffer.init cap s : RingBuffer ℤ).set_triggered) m
        = some (f (m % s)) := by
    intro m
    apply RingBuffer.outN_spec _ _ _ rfl rfl
    intro k _
    refine ⟨hs, ?_⟩
    simpa [RingBuffer.init] using hcap
  refine ⟨hmain n, fun hlt => by rw [hmain n, Nat.mod_eq_of_lt hlt], ?_⟩
  rw [hmain n, hmain (n + s), Nat.add_mod_right]

/-- C1 witness: capacity 8, size 4, inputs 1,2,3,…; the output at sample
index 9 is 2, as in the spec's `[1,2,3,4,1,2,3,4,1,2,…]` sequence. -/
theorem capture_then_loop_witness :
    RingBuffer.outN (fun k => (k : ℤ) + 1) (fun _ => 4)
      ((RingBuffer.init 8 4 : RingBuffer ℤ).set_triggered) 9 = some 2 := by
  have h := (capture_then_loop 8 4 9 (fun k => (k : ℤ) + 1) (by decide) (by decide)).1
  rw [h]; decide

/-- C2: growing the active size mid-loop exposes the previously
captured-but-unplayed raw inputs: with any per-step valid size schedule the
output at step `n` is the raw input at position `n mod (size at step n)`;
in particular, with capacity 8 and size 2 for the first 6 samples then 4,
samples 6 and 7 output the raw inputs captured at positions 2 and 3. -/
theorem seamless_grow (cap s0 n : ℕ) (sizes : ℕ → ℕ) (f : ℕ → ℤ)
    (hsz : ∀ k, k ≤ n → 0 < sizes k ∧ sizes k ≤ cap) :
    RingBuffer.outN f sizes ((RingBuffer.init cap s0 : RingBuffer ℤ).set_triggered) n
        = some (f (n % sizes n))
    ∧ RingBuffer.outN f growSizes ((RingBuffer.init 8 2 : RingBuffer ℤ).set_triggered) 6
        = some (f 2)
    ∧ RingBuffer.outN f growSizes ((RingBuffer.init 8 2 : RingBuffer ℤ).set_triggered) 7
        = some (f 3) := by
  refine ⟨?_, ?_, ?_⟩
  · apply RingBuffer.outN_spec _ _ _ rfl rfl
    intro k hk
    refine ⟨(hsz k hk).1, ?_⟩
    simpa [RingBuffer.init] using (hsz k hk).2
  · have h := RingBuffer.outN_spec f growSizes
      ((RingBuffer.init 8 2 : RingBuffer ℤ).set_triggered) rfl rfl 6 (by decide)
    simpa [growSizes] using h
  · have h := RingBuffer.outN_spec f growSizes
      ((RingBuffer.init 8 2 : RingBuffer ℤ).set_triggered) rfl rfl 7 (by decide)
    simpa [growSizes] using h

/-- C2 witness: with inputs 1,2,3,… the outputs at samples 6 and 7 are 3 and
4 (the raw inputs captured at positions 2 and 3). -/
theorem seamless_grow_witness :
    RingBuffer.outN (fun k => (k : ℤ) + 1) growSizes
        ((RingBuffer.init 8 2 : RingBuffer ℤ).set_triggered) 6 = some 3
    ∧ RingBuffer.outN (fun k => (k : ℤ) + 1) growSizes
        ((RingBuffer.init 8 2 : RingBuffer ℤ).set_triggered) 7 = some 4 := by
  have h := seamless_grow 8 2 6 growSizes (fun k => (k : ℤ) + 1) (by decide)
  refine ⟨?_, ?_⟩
  · rw [h.2.1]; decide
  · rw [h.2.2]; decide

/-- C3 counterexample: `set_size` does not clamp — `set_size 0` stores 0,
not `clamp(0, 1, capacity) = 1`, and a subsequent triggered `next` hits the
division by zero (`none` models the Rust panic in `needle % size`). -/
theorem set_size_clamp_counterexample :
    ((RingBuffer.init 8 8 : RingBuffer ℤ).set_size 0).size ≠
        rustClamp 0 1 ((RingBuffer.init 8 8 : RingBuffer ℤ).buffer.length)
    ∧ ((RingBuffer.init 8 8 : RingBuffer ℤ).set_triggered.set_size 0).next 5 = none := by
  decide

/-- C3 amended: `set_size` stores `new_size` unchanged (no clamp, no buffer
mutation, no needle reset, no trigger change); the clamp to `[1, capacity]`
is performed upstream by `Parameters::from`, and for any size in that range
every subsequent `next` call is free of division by zero and out-of-range
indexing. -/
theorem set_size_amended (rb : RingBuffer ℚ) (n : ℕ) (i : ℚ) :
    (rb.set_size n).size = n
    ∧ (rb.set_size n).buffer = rb.buffer
    ∧ (rb.set_size n).needle = rb.needle
    ∧ (rb.set_size n).trigger = rb.trigger
    ∧ (1 ≤ n → n ≤ rb.buffer.length → ((rb.set_size n).next i).isSome = true) := by
  refine ⟨rfl, rfl, rfl, rfl, fun h1 h2 => ?_⟩
  exact RingBuffer.next_isSome _ i
    (by simpa using Nat.one_le_iff_ne_zero.mp h1) (by simpa using h2)

/-- C3 witness: setting size 4 on a capacity-8 buffer keeps `next` total. -/
theorem set_size_amended_witness :
    (((RingBuffer.init 8 8 : RingBuffer ℚ).set_size 4).next 0).isSome = true :=
  (set_size_amended (RingBuffer.init 8 8) 4 0).2.2.2.2 (by decide) (by decide)

/-- C5: if the trigger stays false, every `next` passes the input through
with the state (in particular the buffer) untouched, so a whole untriggered
run echoes the input list; immediately after a falling edge
(`set_untriggered`) the next output equals that sample's raw input. -/
theorem pass_through (rb : RingBuffer ℤ) (inputs : List ℤ) (i : ℤ) :
    (rb.trigger = false → rb.run inputs = some (inputs, rb))
    ∧ rb.set_untriggered.next i = some (i, rb.set_untriggered) :=
  ⟨fun h => RingBuffer.run_not_triggered rb h inputs,
   RingBuffer.next_not_triggered _ _ rfl⟩

/-- C5 witness: an untriggered capacity-4 buffer echoes `[5, 6, 7]`. -/
theorem pass_through_witness :
    (RingBuffer.init 4 4 : RingBuffer ℤ).run [5, 6, 7]
      = some ([5, 6, 7], RingBuffer.init 4 4) :=
  (pass_through (RingBuffer.init 4 4) [5, 6, 7] 0).1 rfl

/-- C7 counterexample: construction does not establish `size = capacity` —
`Stutter::new` builds `RingBuffer::new(MAX_BUFFER_SIZE / 2)`, whose buffer
has full length `MAX_BUFFER_SIZE` but whose active size is half that. -/
theorem stutter_new_size_counterexample :
    Stutter.new.ringbuf_left.buffer.length = MAX_BUFFER_SIZE
    ∧ Stutter.new.ringbuf_left.size = MAX_BUFFER_SIZE / 2
    ∧ Stutter.new.ringbuf_left.size ≠ Stutter.new.ringbuf_left.buffer.length := by
  have hlen : Stutter.new.ringbuf_left.buffer.length = MAX_BUFFER_SIZE := by
    simp [Stutter.new, RingBuffer.new, RingBuffer.init]
  refine ⟨hlen, rfl, ?_⟩
  rw [hlen]
  decide

/-- C7 amended: `RingBuffer::new(s)` allocates the zero-filled buffer at full
capacity `MAX_BUFFER_SIZE`, with needle 0, triggered false, and size = the
constructor argument `s`; `Stutter::new` passes `MAX_BUFFER_SIZE / 2`, so the
initial active size is half the capacity, not the capacity. -/
theorem ringbuffer_new_state (s : ℕ) :
    (RingBuffer.new s : RingBuffer ℚ).buffer = List.replicate MAX_BUFFER_SIZE 0
    ∧ (RingBuffer.new s : RingBuffer ℚ).buffer.length = MAX_BUFFER_SIZE
    ∧ (RingBuffer.new s : RingBuffer ℚ).needle = 0
    ∧ (RingBuffer.new s : RingBuffer ℚ).trigger = false
    ∧ (RingBuffer.new s : RingBuffer ℚ).size = s
    ∧ Stutter.new.ringbuf_left = RingBuffer.new (MAX_BUFFER_SIZE / 2)
    ∧ Stutter.new.ringbuf_right = RingBuffer.new (MAX_BUFFER_SIZE / 2)
    ∧ Stutter.new.last_trigger_state = false := by
  refine ⟨rfl, ?_, rfl, rfl, rfl, rfl, rfl, rfl⟩
  simp [RingBuffer.new, RingBuffer.init]

/-- C4: across every successful `RingBuffer` operation — a buffer cell is
written only by a `next` call with the trigger up and needle < capacity;
once needle ≥ capacity a triggered `next` leaves the buffer frozen while
still emitting `buffer[needle mod size]`; the needle is non-decreasing under
every operation except `set_triggered`, which alone resets it to 0
(`set_size` and `set_untriggered` change neither needle nor buffer). -/
theorem ringbuffer_trace_invariants (rb rb' : RingBuffer ℤ) (op : Op ℤ)
    (h : applyOp rb op = some rb') :
    (rb'.buffer ≠ rb.buffer →
        ∃ i, op = Op.next i ∧ rb.trigger = true ∧ rb.needle < rb.buffer.length)
    ∧ (op = Op.setTriggered → rb'.needle = 0)
    ∧ (op ≠ Op.setTriggered → rb.needle ≤ rb'.needle)
    ∧ (∀ n, op = Op.setSize n → rb'.needle = rb.needle ∧ rb'.buffer = rb.buffer)
    ∧ (op = Op.setUntriggered → rb'.needle = rb.needle ∧ rb'.buffer = rb.buffer)
    ∧ (∀ i, op = Op.next i → rb.trigger = true → rb.buffer.length ≤ rb.needle →
        rb'.buffer = rb.buffer ∧ rb'.needle = rb.needle + 1
        ∧ (rb.next i).map Prod.fst = rb.buffer[rb.needle % rb.size]?)
    ∧ (∀ i m, op = Op.next i → m ≠ rb.needle → rb'.buffer[m]? = rb.buffer[m]?) := by
  cases op with
  | setSize n =>
      simp only [applyOp, Option.some.injEq] at h
      subst h
      exact ⟨fun hne => absurd rfl hne, fun heq => Op.noConfusion heq,
        fun _ => Nat.le_refl _, fun m _ => ⟨rfl, rfl⟩,
        fun heq => Op.noConfusion heq, fun i heq => Op.noConfusion heq,
        fun i m heq => Op.noConfusion heq⟩
  | setTriggered =>
      simp only [applyOp, Option.some.injEq] at h
      subst h
      exact ⟨fun hne => absurd rfl hne, fun _ => rfl,
        fun hne => absurd rfl hne, fun m heq => Op.noConfusion heq,
        fun heq => Op.noConfusion heq, fun i heq => Op.noConfusion heq,
        fun i m heq => Op.noConfusion heq⟩
  | setUntriggered =>
      simp only [applyOp, Option.some.injEq] at h
      subst h
      exact ⟨fun hne => absurd rfl hne, fun heq => Op.noConfusion heq,
        fun _ => Nat.le_refl _, fun m heq => Op.noConfusion heq,
        fun _ => ⟨rfl, rfl⟩, fun i heq => Op.noConfusion heq,
        fun i m heq => Op.noConfusion heq⟩
  | next i =>
      simp only [applyOp] at h
      cases htr : rb.trigger with
      | false =>
          rw [RingBuffer.next_not_triggered rb i htr] at h
          simp only [Option.map_some', Option.some.injEq] at h
          subst h
          exact ⟨fun hne => absurd rfl hne, fun heq => Op.noConfusion heq,
            fun _ => Nat.le_refl _, fun m heq => Op.noConfusion heq,
            fun heq => Op.noConfusion heq, fun i' _ htrue => Bool.noConfusion htrue,
            fun i' m _ _ => rfl⟩
      | true =>
          by_cases hsz : rb.size = 0
          · simp [RingBuffer.next, htr, hsz] at h
          · rw [RingBuffer.next_triggered rb i htr hsz] at h
            cases hget : (rb.writeBuf i)[rb.needle % rb.size]? with
            | none => rw [hget] at h; simp at h
            | some s =>
                rw [hget] at h
                simp only [Option.map_some', Option.some.injEq] at h
                subst h
                refine ⟨?_, fun heq => Op.noConfusion heq, fun _ => Nat.le_succ _,
                  fun m heq => Op.noConfusion heq, fun heq => Op.noConfusion heq,
                  fun i' heq _ hge => ?_, fun i' m _ hm => ?_⟩
                · intro hne
                  by_cases hlt : rb.needle < rb.buffer.length
                  · exact ⟨i, rfl, rfl, hlt⟩
                  · have hwb : rb.writeBuf i = rb.buffer := by
                      unfold RingBuffer.writeBuf
                      rw [if_neg hlt]
                    exact absurd hwb hne
                · injection heq with hi
                  subst hi
                  have hwb : rb.writeBuf i = rb.buffer := by
                    unfold RingBuffer.writeBuf
                    rw [if_neg (Nat.not_lt.mpr hge)]
                  refine ⟨hwb, rfl, ?_⟩
                  rw [RingBuffer.next_triggered rb i htr hsz, hget, Option.map_some']
                  rw [hwb] at hget
                  exact hget.symm
                · show (rb.writeBuf i)[m]? = rb.buffer[m]?
                  unfold RingBuffer.writeBuf
                  split
                  · exact List.getElem?_set_ne (fun h => hm h.symm)
                  · rfl

/-- C4 witness: a triggered `next` on a fresh capacity-4 buffer succeeds and
satisfies the invariants (needle advances from 0 to 1). -/
theorem ringbuffer_trace_invariants_witness :
    ((RingBuffer.init 4 2 : RingBuffer ℤ).set_triggered).needle ≤ 1 := by
  have h := ringbuffer_trace_invariants ((RingBuffer.init 4 2 : RingBuffer ℤ).set_triggered)
    ⟨[7, 0, 0, 0], 1, 2, true⟩ (Op.next 7) (by decide)
  exact h.2.2.1 (by decide)

/-- C6: per block, comparing the previous trigger boolean with the current
one drives exactly the specified state machine on both channel buffers — a
rising edge raises the flag and resets the needle to 0, a falling edge
lowers the flag without touching the needle, a held trigger causes no
transition — and the block's trigger is recorded as the new previous state;
a fresh rising edge restarts capture from the very input sample present at
that edge (the first triggered `next` outputs its own input). -/
theorem trigger_edge_state_machine (st : Stutter) (p : Parameters)
    (rb : RingBuffer ℚ) (x : ℚ) :
    (∃ st', st.process p [] [] = some ([], [], st')
      ∧ st'.last_trigger_state = p.trigger
      ∧ (st.last_trigger_state = false → p.trigger = true →
          st'.ringbuf_left = (st.ringbuf_left.set_size p.buffer_size).set_triggered
          ∧ st'.ringbuf_right = (st.ringbuf_right.set_size p.buffer_size).set_triggered
          ∧ st'.ringbuf_left.needle = 0 ∧ st'.ringbuf_left.trigger = true
          ∧ st'.ringbuf_right.needle = 0 ∧ st'.ringbuf_right.trigger = true)
      ∧ (st.last_trigger_state = true → p.trigger = false →
          st'.ringbuf_left = (st.ringbuf_left.set_size p.buffer_size).set_untriggered
          ∧ st'.ringbuf_right = (st.ringbuf_right.set_size p.buffer_size).set_untriggered
          ∧ st'.ringbuf_left.needle = st.ringbuf_left.needle
          ∧ st'.ringbuf_left.trigger = false
          ∧ st'.ringbuf_right.needle = st.ringbuf_right.needle
          ∧ st'.ringbuf_right.trigger = false)
      ∧ (st.last_trigger_state = p.trigger →
          st'.ringbuf_left = st.ringbuf_left.set_size p.buffer_size
          ∧ st'.ringbuf_right = st.ringbuf_right.set_size p.buffer_size
          ∧ st'.ringbuf_left.needle = st.ringbuf_left.needle
          ∧ st'.ringbuf_left.trigger = st.ringbuf_left.trigger
          ∧ st'.ringbuf_right.needle = st.ringbuf_right.needle
          ∧ st'.ringbuf_right.trigger = st.ringbuf_right.trigger))
    ∧ (0 < rb.size → rb.size ≤ rb.buffer.length →
        (rb.set_triggered.next x).map Prod.fst = some x) := by
  constructor
  · refine ⟨_, rfl, rfl, ?_, ?_, ?_⟩
    · intro h1 h2
      simp [edgeTransition, h1, h2]
    · intro h1 h2
      simp [edgeTransition, h1, h2]
    · intro h12
      cases hc : p.trigger <;> rw [hc] at h12 <;> simp [edgeTransition, h12]
  · intro hs hcap
    have hlen0 : 0 < rb.buffer.length := lt_of_lt_of_le hs hcap
    obtain ⟨s, hget, hnext⟩ := RingBuffer.next_triggered_some rb.set_triggered x rfl
      (by simpa using hs.ne') (by simpa using hcap)
    have hval : (rb.set_triggered.writeBuf x)[rb.set_triggered.needle %
        rb.set_triggered.size]? = some x := by
      unfold RingBuffer.writeBuf
      simp only [RingBuffer.set_triggered_buffer, RingBuffer.set_triggered_needle,
        RingBuffer.set_triggered_size, Nat.zero_mod, if_pos hlen0]
      exact List.getElem?_set_self hlen0
    rw [hget] at hval
    rw [hnext, Option.map_some']
    exact congrArg some (Option.some.inj hval)

/-- C6 witness: a rising edge then `next 5` on a capacity-4, size-2 buffer
outputs the arriving sample 5. -/
theorem trigger_edge_state_machine_witness :
    (((RingBuffer.init 4 2 : RingBuffer ℚ).set_triggered).next 5).map Prod.fst = some 5 :=
  (trigger_edge_state_machine Stutter.new ⟨true, 4, 1⟩ (RingBuffer.init 4 2) 5).2
    (by decide) (by decide)

/-- C8: every mixed output sample is `input * (1 - wet) + looped * wet`
with `wet` held constant across the block; `wet = 0` makes the block's
outputs exactly its inputs regardless of trigger state, and `wet = 1` makes
them exactly the loop buffer's raw `next` outputs. -/
theorem mixer_wet_dry (wet : ℚ) (rb : RingBuffer ℚ) (ins : List ℚ) :
    runMix wet rb ins = (rb.run ins).map
      (fun p => (List.zipWith (fun i o => i * (1 - wet) + o * wet) ins p.1, p.2))
    ∧ runMix 0 rb ins = (rb.run ins).map (fun p => (ins, p.2))
    ∧ runMix 1 rb ins = rb.run ins
    ∧ (∀ (st st' : Stutter) (p : Parameters) (lIn rIn outL outR : List ℚ),
        st.process p lIn rIn = some (outL, outR, st') → p.wet_dry = 0 →
        outL = lIn ∧ outR = rIn) := by
  refine ⟨runMix_eq_zip wet ins rb, runMix_zero ins rb, runMix_one ins rb, ?_⟩
  intro st st' p lIn rIn outL outR hproc hw
  simp only [Stutter.process, hw, runMix_zero] at hproc
  cases hL : (edgeTransition st.last_trigger_state p.trigger
      (st.ringbuf_left.set_size p.buffer_size)).run lIn with
  | none => rw [hL] at hproc; simp at hproc
  | some qL =>
      obtain ⟨osL, rbL⟩ := qL
      rw [hL] at hproc
      cases hR : (edgeTransition st.last_trigger_state p.trigger
          (st.ringbuf_right.set_size p.buffer_size)).run rIn with
      | none => rw [hR] at hproc; simp at hproc
      | some qR =>
          obtain ⟨osR, rbR⟩ := qR
          rw [hR] at hproc
          simp only [Option.map_some', Option.some.injEq, Prod.mk.injEq] at hproc
          exact ⟨hproc.1.symm, hproc.2.1.symm⟩

/-- C8 witness: a fully dry block through `process` echoes both channels. -/
theorem mixer_wet_dry_witness :
    ([] : List ℚ) = [] ∧ ([] : List ℚ) = [] :=
  (mixer_wet_dry 0 (RingBuffer.init 4 4) []).2.2.2
    ⟨RingBuffer.init 4 4, RingBuffer.init 4 4, false⟩
    ⟨(RingBuffer.init 4 4).set_size 4, (RingBuffer.init 4 4).set_size 4, false⟩
    ⟨false, 4, 0⟩ [] [] [] [] rfl rfl

/-- C9: the translation layer's numeric mapping on finite raw values is the
spec's pipeline — exponential ease-in curve `(2^(10x) - 1) / (2^10 - 1)`
(0 for `x ≤ 0`), scaled by the capacity, floored to an integer, clamped to
`[1, capacity]`. -/
theorem param_buffer_size_spec (x : ℝ) :
    paramBufferSize (F32.finite x) = specBufferSize x := by
  unfold paramBufferSize
  simp only [easeF32, mulCap, f32ToUsize]
  unfold specBufferSize ease_in_expo rustClamp USIZE_MAX MAX_BUFFER_SIZE
  split_ifs <;> omega

/-- C10: for every raw `f32` host value — NaN, infinities, out-of-range —
`Parameters::from` yields a buffer size in `[1, MAX_BUFFER_SIZE]`, so the
modulo divisor of a subsequent `next` is never zero and `next` is total on
a full-capacity buffer whose size came through the translation layer. -/
theorem param_buffer_size_safe (v : F32) (rb : RingBuffer ℚ) (i : ℚ)
    (hlen : rb.buffer.length = MAX_BUFFER_SIZE) :
    1 ≤ paramBufferSize v ∧ paramBufferSize v ≤ MAX_BUFFER_SIZE
    ∧ paramBufferSize v ≠ 0
    ∧ ((rb.set_size (paramBufferSize v)).next i).isSome = true := by
  have hb := rustClamp_bounds (f32ToUsize (mulCap (easeF32 v)))
  have h1 : 1 ≤ paramBufferSize v := by unfold paramBufferSize; exact hb.1
  have h2 : paramBufferSize v ≤ MAX_BUFFER_SIZE := by unfold paramBufferSize; exact hb.2
  refine ⟨h1, h2, by omega, ?_⟩
  apply RingBuffer.next_isSome
  · simpa using (by omega : paramBufferSize v ≠ 0)
  · simpa [hlen] using h2

/-- C10 witness: the NaN host value still yields a safe size, and `next`
succeeds on a full-capacity buffer configured with it. -/
theorem param_buffer_size_safe_witness :
    1 ≤ paramBufferSize F32.nan ∧ paramBufferSize F32.nan ≤ MAX_BUFFER_SIZE
    ∧ paramBufferSize F32.nan ≠ 0
    ∧ (((RingBuffer.new 7 : RingBuffer ℚ).set_size (paramBufferSize F32.nan)).next 0).isSome
        = true :=
  param_buffer_size_safe F32.nan (RingBuffer.new 7) 0
    (by simp [RingBuffer.new, RingBuffer.init])

example : RingBuffer.outN (fun k => (k : ℤ) + 1) (fun _ => 4)
    (RingBuffer.init 8 4 : RingBuffer ℤ).set_triggered 9 = some 2 := by decide
